import Mathlib

/-!
Verification of the `axfs_ramfs` crate (MF-B/axfs_crates): a shallow
embedding of `src/axfs_ramfs/src/{dir.rs, lib.rs, symlink.rs}` in Lean 4,
together with theorems settling the specification claims.

Modelling conventions:
- Rust `String` / `&str` values are `List Char` (`Name`).
- `BTreeMap<String, VfsNodeRef>` is a by-key sorted association list
  `List (Name × Node)`; `btInsert` is the map's ordered insert.
- `Arc` node identity is the node's position in the tree: a list of child
  names from the root (`List Name`).  Path-resolving operations return the
  position they resolve to.
- The impure dynamic-symlink callback `Fn() -> String` is embedded as a
  function `Nat → Name` from an explicit invocation world; each call of
  `target` passes the current world, so no result is ever cached.
- Recursive path operations (`lookup`, `create`, `remove`, `symlink`) recurse
  on an explicit fuel initialised to `path.length + 1`, which strictly bounds
  the recursion depth of the Rust originals (each recursive call strips at
  least one character from the path).
-/

namespace RamFs

/-- Rust strings are modelled as lists of characters. -/
abbrev Name := List Char

/-- The error vocabulary of `axfs_vfs::VfsError` used by this crate. -/
inductive VfsError where
  | NotFound
  | AlreadyExists
  | DirectoryNotEmpty
  | InvalidInput
  | Unsupported
  | NotADirectory
deriving DecidableEq

/-- Node types of `axfs_vfs::VfsNodeType` relevant to this crate; `Other`
stands for the remaining device/fifo/socket variants, which `create_node`
rejects with `Unsupported`. -/
inductive VfsNodeType where
  | File
  | Dir
  | SymLink
  | Other
deriving DecidableEq

/-- Permission constants used by the crate (`default_file` / `default_dir`). -/
inductive VfsNodePerm where
  | default_file
  | default_dir
deriving DecidableEq

/-- Attributes `axfs_vfs::VfsNodeAttr`: permissions, type, size, blocks. -/
structure VfsNodeAttr where
  perm : VfsNodePerm
  ty : VfsNodeType
  size : Nat
  blocks : Nat
deriving DecidableEq

/-- Constructor corresponding to `VfsNodeAttr::new`. -/
def VfsNodeAttr.new (perm : VfsNodePerm) (ty : VfsNodeType) (size blocks : Nat) :
    VfsNodeAttr :=
  ⟨perm, ty, size, blocks⟩

/-- Constructor corresponding to `VfsNodeAttr::new_dir`. -/
def VfsNodeAttr.new_dir (size blocks : Nat) : VfsNodeAttr :=
  VfsNodeAttr.new .default_dir .Dir size blocks

/-- Accessor corresponding to `VfsNodeAttr::file_type`. -/
def VfsNodeAttr.file_type (a : VfsNodeAttr) : VfsNodeType :=
  a.ty

/-- Generator for symlink targets (`symlink.rs::SymlinkGenerator`): a fixed
string, or a callback invoked anew on every read (embedded as a function of
the invocation world). -/
inductive SymlinkGenerator where
  | Static (target : Name)
  | Dynamic (callback : Nat → Name)

/-- Symbolic-link node (`symlink.rs::SymlinkNode`). -/
structure SymlinkNode where
  generator : SymlinkGenerator

/-- Constructor `SymlinkNode::new_static`. -/
def SymlinkNode.new_static (target : Name) : SymlinkNode :=
  ⟨.Static target⟩

/-- Constructor `SymlinkNode::new_dynamic`. -/
def SymlinkNode.new_dynamic (callback : Nat → Name) : SymlinkNode :=
  ⟨.Dynamic callback⟩

/-- Method `SymlinkNode::target`: a static generator returns the stored
string; a dynamic generator is invoked (at the current world `w`). -/
def SymlinkNode.target (s : SymlinkNode) (w : Nat) : Name :=
  match s.generator with
  | .Static t => t
  | .Dynamic callback => callback w

/-- Method `SymlinkNode::get_attr`: always `Ok`, size is the byte length of
the target computed by this very invocation. -/
def SymlinkNode.get_attr (s : SymlinkNode) (w : Nat) : Except VfsError VfsNodeAttr :=
  .ok (VfsNodeAttr.new .default_file .SymLink (s.target w).length 0)

/-- A node of the RAM filesystem tree.  `file` carries its byte length
(the buffer itself is irrelevant to the claims); `dir` owns its children as
a by-key sorted association list (the `BTreeMap`). -/
inductive Node where
  | file (size : Nat)
  | symlink (s : SymlinkNode)
  | dir (children : List (Name × Node))

abbrev Children := List (Name × Node)

/-- Key lookup in the children map (`BTreeMap::get`). -/
def childGet : Children → Name → Option Node
  | [], _ => none
  | (k, v) :: rest, n => if k = n then some v else childGet rest n

/-- Strict byte-wise lexicographic order on names, the `Ord` instance the
Rust `BTreeMap<String, _>` sorts by. -/
def nameLt : Name → Name → Bool
  | [], [] => false
  | [], _ :: _ => true
  | _ :: _, [] => false
  | a :: as, b :: bs =>
    if a.toNat < b.toNat then true
    else if b.toNat < a.toNat then false
    else nameLt as bs

/-- Ordered insert-or-replace in the children map (`BTreeMap::insert`). -/
def btInsert : Children → Name → Node → Children
  | [], k, v => [(k, v)]
  | (k', v') :: rest, k, v =>
    if nameLt k k' then (k, v) :: (k', v') :: rest
    else if k = k' then (k, v) :: rest
    else (k', v') :: btInsert rest k v

/-- Key removal in the children map (`BTreeMap::remove`). -/
def childErase : Children → Name → Children
  | [], _ => []
  | (k', v') :: rest, k =>
    if k' = k then rest else (k', v') :: childErase rest k

/-- Fetch the node at a position (a list of child names from the root).
The empty position is the root itself. -/
def getAt : Node → List Name → Option Node
  | t, [] => some t
  | t, n :: p =>
    match t with
    | .dir cs =>
      match childGet cs n with
      | some c => getAt c p
      | none => none
    | _ => none

/-- Replace the children map of the directory at a position, rebuilding the
tree from the root (the pure image of mutating that directory in place). -/
def setChildrenAt : Node → List Name → Children → Node
  | t, [], cs' =>
    match t with
    | .dir _ => .dir cs'
    | other => other
  | t, n :: p, cs' =>
    match t with
    | .dir cs =>
      match childGet cs n with
      | some c => .dir (btInsert cs n (setChildrenAt c p cs'))
      | none => .dir cs
    | other => other

/-- Leading-`/` stripping done by `split_path` (`path.trim_start_matches`). -/
def trimSlashes : List Char → List Char
  | [] => []
  | c :: rest => if c = '/' then trimSlashes rest else c :: rest

/-- Splits off everything after the first `/` (`trimmed_path.find` plus the
slicing in `split_path`); the first component never contains `/`. -/
def splitSeg : List Char → Name × Option (List Char)
  | [] => ([], none)
  | c :: rest =>
    if c = '/' then ([], some rest)
    else
      let (a, b) := splitSeg rest
      (c :: a, b)

/-- Function `dir.rs::split_path`. -/
def split_path (path : List Char) : Name × Option (List Char) :=
  splitSeg (trimSlashes path)

/-- Method `DirNode::get_attr`: always `Ok(VfsNodeAttr::new_dir(4096, 0))`. -/
def DirNode.get_attr : Except VfsError VfsNodeAttr :=
  .ok (VfsNodeAttr.new_dir 4096 0)

/-- Modelled from the spec: `FileNode::get_attr` lives in `file.rs`, which is
not part of the provided sources.  Per the spec, a file node reports its
attribute value object `(permissions, type, size, block-count)` with the
byte-buffer length as size; attribute queries are ordinary immediate result
values, never failures. -/
def FileNode.get_attr (size : Nat) : Except VfsError VfsNodeAttr :=
  .ok (VfsNodeAttr.new .default_file .File size 0)

/-- Dynamic dispatch of `get_attr` over the three node kinds stored by this
filesystem. -/
def getAttr (n : Node) (w : Nat) : Except VfsError VfsNodeAttr :=
  match n with
  | .dir _ => DirNode.get_attr
  | .file size => FileNode.get_attr size
  | .symlink s => s.get_attr w

/-- Method `DirNode::exist`. -/
def exist (cs : Children) (name : Name) : Bool :=
  (childGet cs name).isSome

/-- Method `DirNode::add_node` acting on the children map; the pair returns
the result value together with the (possibly updated) map, mirroring the
`&mut`-style mutation. -/
def add_node (cs : Children) (name : Name) (node : Node) :
    Option VfsError × Children :=
  match childGet cs name with
  | some _ => (some .AlreadyExists, cs)
  | none => (none, btInsert cs name node)

/-- Method `DirNode::create_node`. -/
def create_node (cs : Children) (name : Name) (ty : VfsNodeType) :
    Option VfsError × Children :=
  if exist cs name then (some .AlreadyExists, cs)
  else
    match ty with
    | .File => (none, btInsert cs name (.file 0))
    | .Dir => (none, btInsert cs name (.dir []))
    | .SymLink => (some .InvalidInput, cs)
    | .Other => (some .Unsupported, cs)

/-- Method `DirNode::create_symlink_node`. -/
def create_symlink_node (cs : Children) (name : Name) (target : Name) :
    Option VfsError × Children :=
  add_node cs name (.symlink (SymlinkNode.new_static target))

/-- Method `DirNode::remove_node`: `NotFound` when the name is absent; a
directory child with a non-empty children map is rejected with
`DirectoryNotEmpty` (only `DirNode` children are downcast and checked);
otherwise the entry is removed. -/
def remove_node (cs : Children) (name : Name) : Option VfsError × Children :=
  match childGet cs name with
  | none => (some .NotFound, cs)
  | some (.dir cs') =>
    if cs'.isEmpty then (none, childErase cs name)
    else (some .DirectoryNotEmpty, cs)
  | some _ => (none, childErase cs name)

/-- Method `DirNode::traverse_path`, acting at a position `self` of the tree
`root`: `""` and `"."` resolve to the node itself, `".."` to the parent
(`NotFound` at the root of an unmounted filesystem, whose parent weak
reference is empty), and any other name to the like-named child. -/
def traverse_path (root : Node) (self : List Name) (name : Name) :
    Except VfsError (List Name) :=
  if name = [] ∨ name = ['.'] then .ok self
  else if name = ['.', '.'] then
    match self with
    | [] => .error .NotFound
    | _ => .ok self.dropLast
  else
    match getAt root self with
    | some (.dir cs) =>
      match childGet cs name with
      | some _ => .ok (self ++ [name])
      | none => .error .NotFound
    | _ => .error .NotFound

/-- Method `DirNode::lookup` (fuelled).  A position holding a directory runs
the `dir.rs` code; a position holding a leaf runs the `axfs_vfs`
`impl_vfs_non_dir_default!` lookup.  Modelled from the spec for the leaf
case: the default behaviour of non-directory node kinds rejects directory
operations with a not-a-directory-class error. -/
def lookupF : Nat → Node → List Name → List Char → Except VfsError (List Name)
  | 0, _, _, _ => .error .NotFound
  | fuel + 1, root, self, path =>
    match getAt root self with
    | some (.dir _) =>
      match split_path path with
      | (name, rest) =>
        match traverse_path root self name with
        | .error e => .error e
        | .ok pos =>
          match rest with
          | some r => lookupF fuel root pos r
          | none => .ok pos
    | some _ => .error .NotADirectory
    | none => .error .NotFound

/-- Entry point `DirNode::lookup` at position `self` of tree `root`. -/
def lookup (root : Node) (self : List Name) (path : List Char) :
    Except VfsError (List Name) :=
  lookupF (path.length + 1) root self path

/-- Method `DirNode::create` (fuelled): path-aware wrapper that descends on a
remainder, treats a final `""`/`"."`/`".."` segment as already existing, and
otherwise runs `create_node`.  Leaf positions run the non-directory default
(modelled from the spec, as in `lookupF`). -/
def createF : Nat → Node → List Name → List Char → VfsNodeType →
    Except VfsError Node
  | 0, _, _, _, _ => .error .NotFound
  | fuel + 1, root, self, path, ty =>
    match getAt root self with
    | some (.dir cs) =>
      match split_path path with
      | (name, some rest) =>
        match traverse_path root self name with
        | .error e => .error e
        | .ok pos => createF fuel root pos rest ty
      | (name, none) =>
        if name = [] ∨ name = ['.'] ∨ name = ['.', '.'] then .ok root
        else
          match create_node cs name ty with
          | (some e, _) => .error e
          | (none, cs') => .ok (setChildrenAt root self cs')
    | some _ => .error .NotADirectory
    | none => .error .NotFound

/-- Entry point `DirNode::create`. -/
def create (root : Node) (self : List Name) (path : List Char)
    (ty : VfsNodeType) : Except VfsError Node :=
  createF (path.length + 1) root self path ty

/-- Method `DirNode::remove` (fuelled): path-aware wrapper; a final
`""`/`"."`/`".."` segment is rejected with `InvalidInput`, otherwise
`remove_node` runs. -/
def removeF : Nat → Node → List Name → List Char → Except VfsError Node
  | 0, _, _, _ => .error .NotFound
  | fuel + 1, root, self, path =>
    match getAt root self with
    | some (.dir cs) =>
      match split_path path with
      | (name, some rest) =>
        match traverse_path root self name with
        | .error e => .error e
        | .ok pos => removeF fuel root pos rest
      | (name, none) =>
        if name = [] ∨ name = ['.'] ∨ name = ['.', '.'] then
          .error .InvalidInput
        else
          match remove_node cs name with
          | (some e, _) => .error e
          | (none, cs') => .ok (setChildrenAt root self cs')
    | some _ => .error .NotADirectory
    | none => .error .NotFound

/-- Entry point `DirNode::remove`. -/
def remove (root : Node) (self : List Name) (path : List Char) :
    Except VfsError Node :=
  removeF (path.length + 1) root self path

/-- Method `DirNode::symlink` (fuelled): an empty target is rejected with
`InvalidInput` up front; then the path-aware wrapper descends, rejecting a
final `""`/`"."`/`".."` segment with `InvalidInput` and otherwise running
`create_symlink_node`. -/
def symlinkF : Nat → Node → List Name → Name → List Char →
    Except VfsError Node
  | 0, _, _, _, _ => .error .NotFound
  | fuel + 1, root, self, target, path =>
    if target = [] then .error .InvalidInput
    else
      match getAt root self with
      | some (.dir cs) =>
        match split_path path with
        | (name, some rest) =>
          match traverse_path root self name with
          | .error e => .error e
          | .ok pos => symlinkF fuel root pos target rest
        | (name, none) =>
          if name = [] ∨ name = ['.'] ∨ name = ['.', '.'] then
            .error .InvalidInput
          else
            match create_symlink_node cs name target with
            | (some e, _) => .error e
            | (none, cs') => .ok (setChildrenAt root self cs')
      | some _ => .error .NotADirectory
      | none => .error .NotFound

/-- Entry point `DirNode::symlink`. -/
def symlink (root : Node) (self : List Name) (target : Name)
    (path : List Char) : Except VfsError Node :=
  symlinkF (path.length + 1) root self target path

/-- The loop of `DirNode::read_dir`: `rem` is the children iterator after the
initial `skip`, `i` the slot index, `slots` the remaining output slots
(`dirents.len() - i`).  Slot `i` receives the conceptual entry at index
`i + start_idx` (`0` is `"."`, `1` is `".."`, the rest come from the
iterator); exhaustion of the iterator returns the count `i`, completion of
the loop returns `dirents.len()`.  The `unwrap` of each child's `get_attr`
is modelled by propagating a panic as `none`. -/
def readDirLoop (w : Nat) :
    Children → Nat → Nat → Nat → Option (List (Name × VfsNodeType) × Nat)
  | _, _, i, 0 => some ([], i)
  | rem, start_idx, i, slots + 1 =>
    match i + start_idx with
    | 0 =>
      (readDirLoop w rem start_idx (i + 1) slots).map
        (fun ec => ((['.'], .Dir) :: ec.1, ec.2))
    | 1 =>
      (readDirLoop w rem start_idx (i + 1) slots).map
        (fun ec => ((['.', '.'], .Dir) :: ec.1, ec.2))
    | _ + 2 =>
      match rem with
      | [] => some ([], i)
      | (name, node) :: rest =>
        match getAttr node w with
        | .ok a =>
          (readDirLoop w rest start_idx (i + 1) slots).map
            (fun ec => ((name, a.file_type) :: ec.1, ec.2))
        | .error _ => none

/-- Method `DirNode::read_dir` with `len` output slots: skips
`start_idx.max(2) - 2` children, then runs the loop. -/
def read_dir (w : Nat) (cs : Children) (start_idx len : Nat) :
    Option (List (Name × VfsNodeType) × Nat) :=
  readDirLoop w (cs.drop (max start_idx 2 - 2)) start_idx 0 len

/-- Function `lib.rs`: `str::rsplit_once('/')` — the pieces before and after
the last `/`, or `none` when the string has no `/`. -/
def rsplitOnce : Name → Option (Name × Name)
  | [] => none
  | c :: rest =>
    match rsplitOnce rest with
    | some (a, b) => some (c :: a, b)
    | none => if c = '/' then some ([], rest) else none

/-- Method `RamFileSystem::add_dynamic_symlink` acting on the root node of
the filesystem (the `root` field is always a directory): the path is split at
its last `/` into parent path and name, the parent directory is resolved
(the root when the parent path is empty or when the path has no `/`), and the
dynamic symlink is inserted there via `add_node`; a resolved non-directory
parent is rejected with `NotADirectory`. -/
def add_dynamic_symlink (root : Node) (path : Name) (generator : Nat → Name) :
    Except VfsError Node :=
  let sym : Node := .symlink (SymlinkNode.new_dynamic generator)
  match rsplitOnce path with
  | some (parentPath, name) =>
    match
      (if parentPath = [] then .ok ([] : List Name)
       else lookup root [] parentPath) with
    | .error e => .error e
    | .ok pos =>
      match getAt root pos with
      | some (.dir cs) =>
        match add_node cs name sym with
        | (some e, _) => .error e
        | (none, cs') => .ok (setChildrenAt root pos cs')
      | some _ => .error .NotADirectory
      | none => .error .NotFound
  | none =>
    match root with
    | .dir cs =>
      match add_node cs path sym with
      | (some e, _) => .error e
      | (none, cs') => .ok (.dir cs')
    | _ => .error .NotADirectory

/-- The node type reported for each node kind by its `get_attr`. -/
def fileTypeOf : Node → VfsNodeType
  | .dir _ => .Dir
  | .file _ => .File
  | .symlink _ => .SymLink

/-- The conceptual listing sequence of a directory:
`[".", "..", child₀, child₁, …]` with each child paired with its reported
node type. -/
def conceptSeq (cs : Children) : List (Name × VfsNodeType) :=
  (['.'], .Dir) :: (['.', '.'], .Dir) ::
    cs.map (fun kv => (kv.1, fileTypeOf kv.2))

/-- Reader or writer side of a directory's `children` RwLock. -/
inductive LockKind where
  | readLock
  | writeLock
deriving DecidableEq

/-- A lock event: acquisition or release of the `children` lock of the
directory at a position. -/
structure LockEv where
  acquire : Bool
  kind : LockKind
  node : List Name
deriving DecidableEq

/-- The set of positions whose `children` lock is held after an event. -/
def heldAfter (held : List (List Name)) (e : LockEv) : List (List Name) :=
  if e.acquire then e.node :: held else held.erase e.node

/-- Scans a trace with the currently-held set: `true` when some acquisition
happens while the lock of a distinct directory is already held. -/
def twoDistinctAux (held : List (List Name)) : List LockEv → Bool
  | [] => false
  | e :: rest =>
    (e.acquire && held.any (fun q => decide (q ≠ e.node))) ||
      twoDistinctAux (heldAfter held e) rest

/-- Whether a call's lock trace ever holds the `children` locks of two
distinct directories simultaneously. -/
def holdsTwoDistinct (tr : List LockEv) : Bool :=
  twoDistinctAux [] tr

/-- Children-lock events of `DirNode::traverse_path`: the `""`/`"."` arm
touches no `children` lock, the `".."` arm only reads the `parent` field
lock of the same directory, and the child arm acquires and releases the
directory's own `children` read lock within the expression. -/
def traverse_path_trace (self : List Name) (name : Name) : List LockEv :=
  if name = [] ∨ name = ['.'] then []
  else if name = ['.', '.'] then []
  else [⟨true, .readLock, self⟩, ⟨false, .readLock, self⟩]

/-- Children-lock events of `DirNode::lookup`: the traversal's read lock is
released before the recursive descent into the resolved node (the `rest`
recursion happens after `traverse_path` has returned); the non-directory
default implementation touches no directory lock. -/
def lookupTraceF : Nat → Node → List Name → List Char → List LockEv
  | 0, _, _, _ => []
  | fuel + 1, root, self, path =>
    match getAt root self with
    | some (.dir _) =>
      match split_path path with
      | (name, rest) =>
        traverse_path_trace self name ++
          match traverse_path root self name with
          | .error _ => []
          | .ok pos =>
            match rest with
            | some r => lookupTraceF fuel root pos r
            | none => []
    | _ => []

/-- Lock trace of the `DirNode::lookup` entry point. -/
def lookupTrace (root : Node) (self : List Name) (path : List Char) :
    List LockEv :=
  lookupTraceF (path.length + 1) root self path

/-- Children-lock events of `DirNode::remove_node`: the directory's own
write guard spans the whole body, and when the named child downcasts to a
directory its `children` read lock is taken (and dropped) inside that span
for the emptiness check. -/
def remove_node_trace (self : List Name) (cs : Children) (name : Name) :
    List LockEv :=
  ⟨true, .writeLock, self⟩ ::
    (match childGet cs name with
     | some (.dir _) =>
       [⟨true, .readLock, self ++ [name]⟩, ⟨false, .readLock, self ++ [name]⟩]
     | _ => []) ++
    [⟨false, .writeLock, self⟩]

/-- Children-lock events of the path-aware `DirNode::remove` wrapper. -/
def removeTraceF : Nat → Node → List Name → List Char → List LockEv
  | 0, _, _, _ => []
  | fuel + 1, root, self, path =>
    match getAt root self with
    | some (.dir cs) =>
      match split_path path with
      | (name, some rest) =>
        traverse_path_trace self name ++
          match traverse_path root self name with
          | .error _ => []
          | .ok pos => removeTraceF fuel root pos rest
      | (name, none) =>
        if name = [] ∨ name = ['.'] ∨ name = ['.', '.'] then []
        else remove_node_trace self cs name
    | _ => []

/-- Lock trace of the `DirNode::remove` entry point. -/
def removeTrace (root : Node) (self : List Name) (path : List Char) :
    List LockEv :=
  removeTraceF (path.length + 1) root self path

/-- State of `RamFileSystem` relevant to `mount`: the `Once<VfsNodeRef>`
external-parent slot and the root directory's parent weak reference; the
external nodes outside this filesystem are identified by naturals. -/
structure RamFileSystem where
  parent : Option Nat
  rootParent : Option Nat
deriving DecidableEq

/-- Constructor `RamFileSystem::new`: unset `Once`, root with empty parent. -/
def RamFileSystem.new : RamFileSystem :=
  ⟨none, none⟩

/-- Method `RamFileSystem::mount`, taking the parent of the mount point
(`mount_point.parent()`): when present, `Once::call_once` stores it unless a
value is already stored, and the root's parent is set to the stored value;
when absent, the root's parent is cleared. -/
def RamFileSystem.mount (fs : RamFileSystem) (mountPointParent : Option Nat) :
    RamFileSystem :=
  match mountPointParent with
  | some p =>
    let stored :=
      match fs.parent with
      | some q => q
      | none => p
    ⟨some stored, some stored⟩
  | none => ⟨fs.parent, none⟩

/-- The attribute value each node kind's `get_attr` returns. -/
def attrOf : Node → Nat → VfsNodeAttr
  | .dir _, _ => VfsNodeAttr.new_dir 4096 0
  | .file size, _ => VfsNodeAttr.new .default_file .File size 0
  | .symlink s, w =>
    VfsNodeAttr.new .default_file .SymLink (s.target w).length 0

/-- A plain child name: non-empty, slash-free, and not one of the
synthesized entries `"."`/`".."`. -/
def plainName (n : Name) : Prop :=
  n ≠ [] ∧ '/' ∉ n ∧ n ≠ ['.'] ∧ n ≠ ['.', '.']

instance (n : Name) : Decidable (plainName n) := by
  unfold plainName
  infer_instance

/-- The children map is strictly sorted by key, the `BTreeMap` shape. -/
def sortedKeys (cs : Children) : Prop :=
  List.Pairwise (fun a b => nameLt a.1 b.1 = true) cs

/-- A tree with a regular file at `a/b`. -/
def sampleFileTree : Node :=
  .dir [(['a'], .dir [(['b'], .file 0)])]

/-- A tree with a directory at `a/b`. -/
def sampleDirTree : Node :=
  .dir [(['a'], .dir [(['b'], .dir [])])]

/-- A dynamic-symlink generator producing the empty string. -/
def emptyGen : Nat → Name :=
  fun _ => []

/-- A dynamic-symlink generator producing different strings on different
invocations. -/
def altGen : Nat → Name :=
  fun w => if w = 0 then ['a'] else ['b']

theorem getAttr_eq_ok (n : Node) (w : Nat) : getAttr n w = .ok (attrOf n w) := by
  cases n <;> rfl

theorem file_type_attrOf (n : Node) (w : Nat) :
    (attrOf n w).file_type = fileTypeOf n := by
  cases n <;> rfl

theorem trimSlashes_cons_slash (l : List Char) :
    trimSlashes ('/' :: l) = trimSlashes l := by
  simp [trimSlashes]

theorem trimSlashes_cons_ne (c : Char) (l : List Char) (h : c ≠ '/') :
    trimSlashes (c :: l) = c :: l := by
  simp [trimSlashes, h]

theorem splitSeg_append_slash :
    ∀ (a : Name) (r : List Char), '/' ∉ a → splitSeg (a ++ '/' :: r) = (a, some r)
  | [], r, _ => by simp [splitSeg]
  | c :: as, r, h => by
    have hc : c ≠ '/' := fun hh => h (hh ▸ List.mem_cons_self c as)
    have htail : '/' ∉ as := fun hh => h (List.mem_cons_of_mem c hh)
    simp [splitSeg, hc, splitSeg_append_slash as r htail]

theorem splitSeg_no_slash :
    ∀ a : Name, '/' ∉ a → splitSeg a = (a, none)
  | [], _ => rfl
  | c :: as, h => by
    have hc : c ≠ '/' := fun hh => h (hh ▸ List.mem_cons_self c as)
    have htail : '/' ∉ as := fun hh => h (List.mem_cons_of_mem c hh)
    simp [splitSeg, hc, splitSeg_no_slash as htail]

theorem splitSeg_fst_no_slash : ∀ l : List Char, '/' ∉ (splitSeg l).1
  | [] => by simp [splitSeg]
  | c :: rest => by
    by_cases hc : c = '/'
    · simp [splitSeg, hc]
    · simpa [splitSeg, hc] using ⟨fun h => hc h.symm, splitSeg_fst_no_slash rest⟩

theorem split_path_fst_no_slash (p : List Char) : '/' ∉ (split_path p).1 :=
  splitSeg_fst_no_slash (trimSlashes p)

theorem split_path_append (a : Name) (r : List Char) (h : '/' ∉ a)
    (hne : a ≠ []) : split_path (a ++ '/' :: r) = (a, some r) := by
  cases a with
  | nil => exact absurd rfl hne
  | cons c as =>
    have hc : c ≠ '/' := fun hh => h (hh ▸ List.mem_cons_self c as)
    rw [split_path, List.cons_append, trimSlashes_cons_ne c _ hc,
      ← List.cons_append]
    exact splitSeg_append_slash _ r h

theorem split_path_plain (a : Name) (h : '/' ∉ a) (hne : a ≠ []) :
    split_path a = (a, none) := by
  cases a with
  | nil => exact absurd rfl hne
  | cons c as =>
    have hc : c ≠ '/' := fun hh => h (hh ▸ List.mem_cons_self c as)
    rw [split_path, trimSlashes_cons_ne c _ hc]
    exact splitSeg_no_slash _ h

theorem getAt_append (t : Node) (p q : List Name) :
    getAt t (p ++ q) = (getAt t p).bind (fun s => getAt s q) := by
  induction p generalizing t with
  | nil => simp [getAt]
  | cons n p' ih =>
    cases t with
    | dir cs =>
      simp only [List.cons_append, getAt]
      cases childGet cs n with
      | some c => exact ih c
      | none => rfl
    | file sz => rfl
    | symlink s => rfl

theorem getAt_child (root : Node) (p : List Name) (cs : Children) (b : Name)
    (nb : Node) (hp : getAt root p = some (.dir cs))
    (hc : childGet cs b = some nb) : getAt root (p ++ [b]) = some nb := by
  rw [getAt_append, hp]
  show getAt (.dir cs) [b] = some nb
  simp only [getAt, hc]

/-- C4: single-segment `remove_node` fails `NotFound` when the name is
absent, fails `DirectoryNotEmpty` leaving the map unchanged when the child is
a directory with at least one child, and otherwise (an empty directory or a
non-directory node) removes the entry from the map. -/
theorem remove_node_semantics (cs : Children) (n : Name) :
    (childGet cs n = none → remove_node cs n = (some .NotFound, cs)) ∧
    (∀ cs', childGet cs n = some (.dir cs') → cs' ≠ [] →
      remove_node cs n = (some .DirectoryNotEmpty, cs)) ∧
    (∀ cs', childGet cs n = some (.dir cs') → cs' = [] →
      remove_node cs n = (none, childErase cs n)) ∧
    (∀ v, childGet cs n = some v → (∀ ds, v ≠ .dir ds) →
      remove_node cs n = (none, childErase cs n)) := by
  refine ⟨?_, ?_, ?_, ?_⟩
  · intro h
    simp [remove_node, h]
  · intro cs' h hne
    cases cs' with
    | nil => exact absurd rfl hne
    | cons x xs => simp [remove_node, h, List.isEmpty]
  · intro cs' h he
    subst he
    simp [remove_node, h, List.isEmpty]
  · intro v h hv
    cases v with
    | dir ds => exact absurd rfl (hv ds)
    | file sz => simp [remove_node, h]
    | symlink s => simp [remove_node, h]

theorem remove_node_semantics_witness :
    remove_node [] ['a'] = (some .NotFound, []) ∧
    remove_node [(['c'], Node.dir [(['d'], Node.file 0)])] ['c'] =
      (some .DirectoryNotEmpty, [(['c'], Node.dir [(['d'], Node.file 0)])]) ∧
    remove_node [(['c'], Node.dir [])] ['c'] =
      (none, childErase [(['c'], Node.dir [])] ['c']) ∧
    remove_node [(['f'], Node.file 0)] ['f'] =
      (none, childErase [(['f'], Node.file 0)] ['f']) :=
  ⟨(remove_node_semantics [] ['a']).1 rfl,
   (remove_node_semantics _ ['c']).2.1 [(['d'], Node.file 0)] rfl (by simp),
   (remove_node_semantics _ ['c']).2.2.1 [] rfl rfl,
   (remove_node_semantics _ ['f']).2.2.2 (Node.file 0) rfl
     (fun ds h => Node.noConfusion h)⟩

/-- C7: when the path-aware wrappers reach a final segment `""`, `"."` or
`".."` at a directory, `create` succeeds leaving the whole tree unchanged,
while `remove` and `symlink` fail with `InvalidInput`. -/
theorem special_final_segment (root : Node) (self : List Name)
    (path : List Char) (cs : Children) (name : Name) (ty : VfsNodeType)
    (target : Name)
    (hroot : getAt root self = some (.dir cs))
    (hsplit : split_path path = (name, none))
    (hname : name = [] ∨ name = ['.'] ∨ name = ['.', '.']) :
    create root self path ty = .ok root ∧
    remove root self path = .error .InvalidInput ∧
    symlink root self target path = .error .InvalidInput := by
  refine ⟨?_, ?_, ?_⟩
  · simp only [create, createF, hroot, hsplit]
    simp [hname]
  · simp only [remove, removeF, hroot, hsplit]
    simp [hname]
  · by_cases ht : target = []
    · simp [symlink, symlinkF, ht]
    · simp only [symlink, symlinkF, hroot, hsplit]
      simp [ht, hname]

theorem special_final_segment_witness :
    create (.dir []) [] ['.'] .File = .ok (.dir []) ∧
    remove (.dir []) [] ['.'] = .error .InvalidInput ∧
    symlink (.dir []) [] ['t'] ['.'] = .error .InvalidInput :=
  special_final_segment (.dir []) [] ['.'] [] ['.'] .File ['t'] rfl rfl
    (Or.inr (Or.inl rfl))

/-- C8: `mount` fixes the root's parent to the mount point's parent and
stores that association in the `Once` slot; once the slot is set it is never
overwritten (later parented mounts reset the root's parent to the stored
value, not to the new mount point's parent); a mount point without a parent
clears the root's parent and leaves the slot untouched. -/
theorem mount_once_semantics :
    (∀ p, RamFileSystem.new.mount (some p) =
      ⟨some p, some p⟩) ∧
    (∀ (fs : RamFileSystem) (q : Nat) (mp : Option Nat), fs.parent = some q →
      (fs.mount mp).parent = some q ∧
      ∀ p, mp = some p → (fs.mount mp).rootParent = some q) ∧
    (∀ fs : RamFileSystem, fs.mount none = ⟨fs.parent, none⟩) := by
  refine ⟨fun p => rfl, ?_, fun fs => rfl⟩
  intro fs q mp h
  cases mp with
  | none =>
    exact ⟨by simp [RamFileSystem.mount, h], fun p hp => Option.noConfusion hp⟩
  | some p' =>
    exact ⟨by simp [RamFileSystem.mount, h], fun p _ => by
      simp [RamFileSystem.mount, h]⟩

theorem mount_once_semantics_witness :
    (RamFileSystem.mount ⟨some 5, none⟩ (some 7)).parent = some 5 ∧
    (RamFileSystem.mount ⟨some 5, none⟩ (some 7)).rootParent = some 5 :=
  ⟨(mount_once_semantics.2.1 ⟨some 5, none⟩ 5 (some 7) rfl).1,
   (mount_once_semantics.2.1 ⟨some 5, none⟩ 5 (some 7) rfl).2 7 rfl⟩

/-- C9: a dynamic symlink's `target` invokes the stored generator anew on
every call and returns exactly that invocation's result, with no caching:
calls whose generator outputs differ report different targets, and the
reported size attribute is the byte length of the current invocation's
target. -/
theorem dynamic_symlink_freshness (f : Nat → Name) (w1 w2 : Nat) :
    SymlinkNode.target (SymlinkNode.new_dynamic f) w1 = f w1 ∧
    (f w1 ≠ f w2 →
      SymlinkNode.target (SymlinkNode.new_dynamic f) w1 ≠
        SymlinkNode.target (SymlinkNode.new_dynamic f) w2) ∧
    SymlinkNode.get_attr (SymlinkNode.new_dynamic f) w1 =
      .ok (VfsNodeAttr.new .default_file .SymLink (f w1).length 0) :=
  ⟨rfl, fun h => h, rfl⟩

theorem dynamic_symlink_freshness_witness :
    altGen 0 ≠ altGen 1 ∧
    SymlinkNode.target (SymlinkNode.new_dynamic altGen) 0 ≠
      SymlinkNode.target (SymlinkNode.new_dynamic altGen) 1 :=
  ⟨by decide, (dynamic_symlink_freshness altGen 0 1).2.1 (by decide)⟩

theorem traverse_path_self (root : Node) (p : List Name) (name : Name)
    (h : name = [] ∨ name = ['.']) : traverse_path root p name = .ok p := by
  simp [traverse_path, h]

theorem traverse_path_child (root : Node) (p : List Name) (cs : Children)
    (n : Name) (v : Node) (hn : plainName n)
    (hp : getAt root p = some (.dir cs)) (hc : childGet cs n = some v) :
    traverse_path root p n = .ok (p ++ [n]) := by
  obtain ⟨h1, _, h2, h3⟩ := hn
  simp [traverse_path, h1, h2, h3, hp, hc]

theorem split_path_cons_slash (l : List Char) :
    split_path ('/' :: l) = split_path l := by
  rw [split_path, split_path, trimSlashes_cons_slash]

theorem lookupF_step_child (fuel : Nat) (root : Node) (p : List Name)
    (cs : Children) (a : Name) (v : Node) (r path : List Char)
    (ha : plainName a) (hp : getAt root p = some (.dir cs))
    (hc : childGet cs a = some v) (hsplit : split_path path = (a, some r)) :
    lookupF (fuel + 1) root p path = lookupF fuel root (p ++ [a]) r := by
  simp only [lookupF, hp, hsplit, traverse_path_child root p cs a v ha hp hc]

theorem lookupF_step_self (fuel : Nat) (root : Node) (p : List Name)
    (cs : Children) (name : Name) (r path : List Char)
    (hname : name = [] ∨ name = ['.'])
    (hp : getAt root p = some (.dir cs))
    (hsplit : split_path path = (name, some r)) :
    lookupF (fuel + 1) root p path = lookupF fuel root p r := by
  simp only [lookupF, hp, hsplit, traverse_path_self root p name hname]

theorem lookupF_single (fuel : Nat) (hf : 0 < fuel) (root : Node)
    (p : List Name) (cs : Children) (b : Name) (v : Node) (hb : plainName b)
    (hp : getAt root p = some (.dir cs)) (hc : childGet cs b = some v) :
    lookupF fuel root p b = .ok (p ++ [b]) := by
  obtain ⟨f, rfl⟩ : ∃ f, fuel = f + 1 := ⟨fuel - 1, by omega⟩
  simp only [lookupF, hp, split_path_plain b hb.2.1 hb.1,
    traverse_path_child root p cs b v hb hp hc]

theorem lookupF_nil_dir (fuel : Nat) (hf : 0 < fuel) (root : Node)
    (p : List Name) (cs : Children) (hp : getAt root p = some (.dir cs)) :
    lookupF fuel root p [] = .ok p := by
  obtain ⟨f, rfl⟩ : ∃ f, fuel = f + 1 := ⟨fuel - 1, by omega⟩
  simp only [lookupF, hp]
  rfl

theorem lookupF_leaf (fuel : Nat) (hf : 0 < fuel) (root : Node)
    (p : List Name) (v : Node) (path : List Char)
    (hp : getAt root p = some v) (hv : ∀ ds, v ≠ .dir ds) :
    lookupF fuel root p path = .error .NotADirectory := by
  obtain ⟨f, rfl⟩ : ∃ f, fuel = f + 1 := ⟨fuel - 1, by omega⟩
  cases v with
  | dir ds => exact absurd rfl (hv ds)
  | file sz => simp [lookupF, hp]
  | symlink s => simp [lookupF, hp]

theorem lookupF_dot_then (fuel : Nat) (hf : 1 < fuel) (root : Node)
    (pa : List Name) (csa : Children) (b : Name) (nb : Node)
    (hb : plainName b) (hpa : getAt root pa = some (.dir csa))
    (hcb : childGet csa b = some nb) :
    lookupF fuel root pa ('.' :: '/' :: b) = .ok (pa ++ [b]) := by
  obtain ⟨f, rfl⟩ : ∃ f, fuel = f + 1 + 1 := ⟨fuel - 2, by omega⟩
  have hs : split_path ('.' :: '/' :: b) = (['.'], some b) :=
    split_path_append ['.'] b (by decide) (by decide)
  rw [lookupF_step_self (f + 1) root pa csa ['.'] b _ (Or.inr rfl) hpa hs]
  exact lookupF_single (f + 1) (by omega) root pa csa b nb hb hpa hcb

theorem lookupF_trailing_dir (fuel : Nat) (hf : 1 < fuel) (root : Node)
    (pa : List Name) (csa : Children) (b : Name) (csb : Children)
    (hb : plainName b) (hpa : getAt root pa = some (.dir csa))
    (hcb : childGet csa b = some (.dir csb)) :
    lookupF fuel root pa (b ++ ['/']) = .ok (pa ++ [b]) := by
  obtain ⟨f, rfl⟩ : ∃ f, fuel = f + 1 + 1 := ⟨fuel - 2, by omega⟩
  rw [lookupF_step_child (f + 1) root pa csa b (.dir csb) [] _ hb hpa hcb
    (split_path_append b [] hb.2.1 hb.1)]
  exact lookupF_nil_dir (f + 1) (by omega) root (pa ++ [b]) csb
    (getAt_child root pa csa b _ hpa hcb)

theorem lookupF_trailing_leaf (fuel : Nat) (hf : 1 < fuel) (root : Node)
    (pa : List Name) (csa : Children) (b : Name) (nb : Node)
    (hb : plainName b) (hpa : getAt root pa = some (.dir csa))
    (hcb : childGet csa b = some nb) (hnb : ∀ ds, nb ≠ .dir ds) :
    lookupF fuel root pa (b ++ ['/']) = .error .NotADirectory := by
  obtain ⟨f, rfl⟩ : ∃ f, fuel = f + 1 + 1 := ⟨fuel - 2, by omega⟩
  rw [lookupF_step_child (f + 1) root pa csa b nb [] _ hb hpa hcb
    (split_path_append b [] hb.2.1 hb.1)]
  exact lookupF_leaf (f + 1) (by omega) root (pa ++ [b]) nb []
    (getAt_child root pa csa b _ hpa hcb) hnb

/-- C1 counterexample: in a tree where a regular *file* exists at `a/b`, the
lookup of `a/b` succeeds but the lookup of `/a/b/` fails (the trailing slash
makes the directory code recurse into the leaf with an empty remainder, which
hits the non-directory default), so the three lookups of the claim do not all
succeed for every file-or-directory at `a/b`. -/
theorem lookup_trailing_slash_cex :
    getAt sampleFileTree [['a'], ['b']] = some (.file 0) ∧
    lookup sampleFileTree [] (['a'] ++ '/' :: ['b']) = .ok [['a'], ['b']] ∧
    lookup sampleFileTree [] ('/' :: ['a'] ++ '/' :: ['b'] ++ ['/']) =
      .error .NotADirectory :=
  ⟨rfl, rfl, rfl⟩

/-- C1 (amended): when `a/b` exists, `lookup("a/./b")` and `lookup("a/b")`
always resolve to the same node; `lookup("/a/b/")` also resolves to that node
when the node at `a/b` is a directory, but fails with `NotADirectory` when it
is a file or symlink (the trailing slash forces a lookup with an empty
remainder on the leaf). -/
theorem lookup_path_equivalence (root : Node) (p : List Name) (a b : Name)
    (cs csa : Children) (nb : Node)
    (ha : plainName a) (hb : plainName b)
    (hp : getAt root p = some (.dir cs))
    (hca : childGet cs a = some (.dir csa))
    (hcb : childGet csa b = some nb) :
    lookup root p (a ++ '/' :: b) = .ok (p ++ [a, b]) ∧
    lookup root p (a ++ '/' :: '.' :: '/' :: b) = .ok (p ++ [a, b]) ∧
    ((∃ csb, nb = .dir csb) →
      lookup root p ('/' :: a ++ '/' :: b ++ ['/']) = .ok (p ++ [a, b])) ∧
    ((∀ csb, nb ≠ .dir csb) →
      lookup root p ('/' :: a ++ '/' :: b ++ ['/']) =
        .error .NotADirectory) := by
  have hpa : getAt root (p ++ [a]) = some (.dir csa) :=
    getAt_child root p cs a _ hp hca
  have happ : (p ++ [a]) ++ [b] = p ++ [a, b] := by simp
  have hshape : ('/' :: a ++ '/' :: b ++ ['/']) =
      '/' :: (a ++ '/' :: (b ++ ['/'])) := by simp
  have hs3 : split_path ('/' :: (a ++ '/' :: (b ++ ['/']))) =
      (a, some (b ++ ['/'])) := by
    rw [split_path_cons_slash]
    exact split_path_append a _ ha.2.1 ha.1
  refine ⟨?_, ?_, ?_, ?_⟩
  · rw [lookup, lookupF_step_child _ root p cs a (.dir csa) b _ ha hp hca
      (split_path_append a b ha.2.1 ha.1),
      lookupF_single _ (by simp) root (p ++ [a]) csa b nb hb hpa hcb, happ]
  · rw [lookup, lookupF_step_child _ root p cs a (.dir csa) ('.' :: '/' :: b)
      _ ha hp hca (split_path_append a ('.' :: '/' :: b) ha.2.1 ha.1),
      lookupF_dot_then _ (by simp; omega) root (p ++ [a]) csa b nb hb hpa hcb,
      happ]
  · rintro ⟨csb, rfl⟩
    rw [hshape, lookup, lookupF_step_child _ root p cs a (.dir csa)
      (b ++ ['/']) _ ha hp hca hs3,
      lookupF_trailing_dir _ (by simp) root (p ++ [a]) csa b csb hb
        hpa hcb, happ]
  · intro hnb
    rw [hshape, lookup, lookupF_step_child _ root p cs a (.dir csa)
      (b ++ ['/']) _ ha hp hca hs3,
      lookupF_trailing_leaf _ (by simp) root (p ++ [a]) csa b nb hb
        hpa hcb hnb]

theorem lookup_path_equivalence_witness :
    lookup sampleDirTree [] (['a'] ++ '/' :: ['b']) =
      .ok ([] ++ [['a'], ['b']]) ∧
    lookup sampleDirTree [] (['a'] ++ '/' :: '.' :: '/' :: ['b']) =
      .ok ([] ++ [['a'], ['b']]) ∧
    lookup sampleDirTree [] ('/' :: ['a'] ++ '/' :: ['b'] ++ ['/']) =
      .ok ([] ++ [['a'], ['b']]) := by
  have h := lookup_path_equivalence sampleDirTree [] ['a'] ['b']
    [(['a'], Node.dir [(['b'], Node.dir [])])] [(['b'], Node.dir [])]
    (.dir []) (by decide) (by decide) rfl rfl rfl
  exact ⟨h.1, h.2.1, h.2.2.1 ⟨[], rfl⟩⟩

theorem add_node_ok (cs : Children) (name : Name) (nd : Node) (cs' : Children)
    (h : add_node cs name nd = (none, cs')) :
    childGet cs name = none ∧ cs' = btInsert cs name nd := by
  cases hcg : childGet cs name with
  | some v => simp [add_node, hcg] at h
  | none =>
    simp only [add_node, hcg] at h
    exact ⟨rfl, (Prod.mk.injEq .. ▸ h).2.symm⟩

theorem create_node_ok (cs : Children) (name : Name) (ty : VfsNodeType)
    (cs' : Children) (h : create_node cs name ty = (none, cs')) :
    childGet cs name = none ∧ ∃ nd, cs' = btInsert cs name nd := by
  have hg : childGet cs name = none := by
    cases hcg : childGet cs name with
    | none => rfl
    | some v => simp [create_node, exist, hcg] at h
  have he : exist cs name = false := by simp [exist, hg]
  refine ⟨hg, ?_⟩
  cases ty with
  | File =>
    simp only [create_node, he, Bool.false_eq_true, if_false] at h
    exact ⟨.file 0, (Prod.mk.injEq .. ▸ h).2.symm⟩
  | Dir =>
    simp only [create_node, he, Bool.false_eq_true, if_false] at h
    exact ⟨.dir [], (Prod.mk.injEq .. ▸ h).2.symm⟩
  | SymLink => simp [create_node, he] at h
  | Other => simp [create_node, he] at h

theorem name_plain_of_split (path : List Char) (name : Name)
    (rest : Option (List Char)) (hsp : split_path path = (name, rest))
    (hname : ¬(name = [] ∨ name = ['.'] ∨ name = ['.', '.'])) :
    plainName name := by
  have h4 : '/' ∉ name := by
    have h := split_path_fst_no_slash path
    rw [hsp] at h
    exact h
  exact ⟨fun hh => hname (Or.inl hh), h4,
    fun hh => hname (Or.inr (Or.inl hh)),
    fun hh => hname (Or.inr (Or.inr hh))⟩

theorem createF_ok_characterization :
    ∀ (fuel : Nat) (root : Node) (self : List Name) (path : List Char)
      (ty : VfsNodeType) (r' : Node),
      createF fuel root self path ty = .ok r' →
      r' = root ∨ ∃ pos name cs nd, plainName name ∧
        getAt root pos = some (.dir cs) ∧ childGet cs name = none ∧
        r' = setChildrenAt root pos (btInsert cs name nd) := by
  intro fuel
  induction fuel with
  | zero =>
    intro root self path ty r' h
    exact absurd h (by simp [createF])
  | succ f ih =>
    intro root self path ty r' h
    simp only [createF] at h
    cases hg : getAt root self with
    | none => rw [hg] at h; exact absurd h (by simp)
    | some v =>
      rw [hg] at h
      cases v with
      | file sz => exact absurd h (by simp)
      | symlink s => exact absurd h (by simp)
      | dir cs =>
        cases hsp : split_path path with
        | mk name rest =>
          rw [hsp] at h
          cases rest with
          | some r =>
            simp only [] at h
            cases htr : traverse_path root self name with
            | error e => rw [htr] at h; exact absurd h (by simp)
            | ok pos => rw [htr] at h; exact ih root pos r ty r' h
          | none =>
            simp only [] at h
            by_cases hname : name = [] ∨ name = ['.'] ∨ name = ['.', '.']
            · rw [if_pos hname] at h
              exact Or.inl (Except.ok.inj h).symm
            · rw [if_neg hname] at h
              cases hcn : create_node cs name ty with
              | mk e cs' =>
                rw [hcn] at h
                cases e with
                | some e0 => exact absurd h (by simp)
                | none =>
                  obtain ⟨hg0, nd, hins⟩ := create_node_ok cs name ty cs' hcn
                  refine Or.inr ⟨self, name, cs, nd,
                    name_plain_of_split path name none hsp hname, hg, hg0, ?_⟩
                  rw [← Except.ok.inj h, hins]

theorem symlinkF_ok_characterization :
    ∀ (fuel : Nat) (root : Node) (self : List Name) (target : Name)
      (path : List Char) (r' : Node),
      symlinkF fuel root self target path = .ok r' →
      target ≠ [] ∧ ∃ pos name cs, plainName name ∧
        getAt root pos = some (.dir cs) ∧ childGet cs name = none ∧
        r' = setChildrenAt root pos
          (btInsert cs name (.symlink (SymlinkNode.new_static target))) := by
  intro fuel
  induction fuel with
  | zero =>
    intro root self target path r' h
    exact absurd h (by simp [symlinkF])
  | succ f ih =>
    intro root self target path r' h
    simp only [symlinkF] at h
    by_cases ht : target = []
    · rw [if_pos ht] at h
      exact absurd h (by simp)
    · rw [if_neg ht] at h
      cases hg : getAt root self with
      | none => rw [hg] at h; exact absurd h (by simp)
      | some v =>
        rw [hg] at h
        cases v with
        | file sz => exact absurd h (by simp)
        | symlink s => exact absurd h (by simp)
        | dir cs =>
          cases hsp : split_path path with
          | mk name rest =>
            rw [hsp] at h
            cases rest with
            | some r =>
              simp only [] at h
              cases htr : traverse_path root self name with
              | error e => rw [htr] at h; exact absurd h (by simp)
              | ok pos => rw [htr] at h; exact ih root pos target r r' h
            | none =>
              simp only [] at h
              by_cases hname : name = [] ∨ name = ['.'] ∨ name = ['.', '.']
              · rw [if_pos hname] at h
                exact absurd h (by simp)
              · rw [if_neg hname] at h
                cases hcn : create_symlink_node cs name target with
                | mk e cs' =>
                  rw [hcn] at h
                  cases e with
                  | some e0 => exact absurd h (by simp)
                  | none =>
                    obtain ⟨hg0, hins⟩ := add_node_ok cs name _ cs' hcn
                    refine ⟨ht, self, name, cs,
                      name_plain_of_split path name none hsp hname, hg, hg0, ?_⟩
                    rw [← Except.ok.inj h, hins]

/-- C3 counterexample: the public `add_node` and `create_node` perform no
name validation, so a single public operation stores the key `"."` in the
children map; `add_dynamic_symlink` likewise stores `"."` when the path's
final component is `"."`. -/
theorem children_name_invariant_cex :
    add_node [] ['.'] (.file 0) = (none, [(['.'], Node.file 0)]) ∧
    create_node [] ['.'] .File = (none, [(['.'], Node.file 0)]) ∧
    add_dynamic_symlink sampleDirTree ['a', '/', '.'] emptyGen =
      .ok (.dir [(['a'],
        .dir [(['.'], .symlink (SymlinkNode.new_dynamic emptyGen)),
              (['b'], .dir [])])]) :=
  ⟨rfl, rfl, rfl⟩

/-- C3 (amended): the path-aware `create` and `symlink` wrappers only ever
insert a plain final segment (non-empty, slash-free, not `"."`/`".."`) into
one directory's map — any successful run either leaves the tree unchanged or
performs exactly such an insertion; the single-segment `add_node` and
`create_node` and the `add_dynamic_symlink` convenience method perform no
such validation and can store arbitrary keys (see the counterexample). -/
theorem wrappers_insert_plain_names :
    (∀ (fuel : Nat) (root : Node) (self : List Name) (path : List Char)
      (ty : VfsNodeType) (r' : Node),
      createF fuel root self path ty = .ok r' →
      r' = root ∨ ∃ pos name cs nd, plainName name ∧
        getAt root pos = some (.dir cs) ∧ childGet cs name = none ∧
        r' = setChildrenAt root pos (btInsert cs name nd)) ∧
    (∀ (fuel : Nat) (root : Node) (self : List Name) (target : Name)
      (path : List Char) (r' : Node),
      symlinkF fuel root self target path = .ok r' →
      target ≠ [] ∧ ∃ pos name cs, plainName name ∧
        getAt root pos = some (.dir cs) ∧ childGet cs name = none ∧
        r' = setChildrenAt root pos
          (btInsert cs name (.symlink (SymlinkNode.new_static target)))) :=
  ⟨createF_ok_characterization, symlinkF_ok_characterization⟩

theorem wrappers_insert_plain_names_witness :
    Node.dir [(['z'], Node.file 0)] = Node.dir [] ∨
    ∃ pos name cs nd, plainName name ∧
      getAt (Node.dir []) pos = some (.dir cs) ∧ childGet cs name = none ∧
      Node.dir [(['z'], Node.file 0)] =
        setChildrenAt (Node.dir []) pos (btInsert cs name nd) :=
  wrappers_insert_plain_names.1 2 (.dir []) [] ['z'] .File
    (.dir [(['z'], Node.file 0)]) rfl

/-- C6 counterexample: `add_dynamic_symlink` accepts a generator that
produces the empty string; the creation succeeds and the stored symlink's
target query returns the empty string, so not every symlink existing after a
successful creation reports a non-empty target. -/
theorem symlink_empty_target_cex :
    add_dynamic_symlink (.dir []) ['l'] emptyGen =
      .ok (.dir [(['l'], .symlink (SymlinkNode.new_dynamic emptyGen))]) ∧
    (match getAt
        (.dir [(['l'], Node.symlink (SymlinkNode.new_dynamic emptyGen))])
        [['l']] with
     | some (.symlink s) => s.target 0
     | _ => ['x']) = [] :=
  ⟨rfl, rfl⟩

/-- C6 (amended): creating a symlink with an empty *fixed* target is
rejected with `InvalidInput`; a successful `symlink` call stores a static
symlink with the given non-empty target, and every target query on it
returns exactly that stored (hence non-empty) target.  A *dynamic* symlink's
target query returns the generator's output, which may be empty (see the
counterexample). -/
theorem symlink_target_nonempty :
    (∀ (root : Node) (self : List Name) (path : List Char),
      symlink root self [] path = .error .InvalidInput) ∧
    (∀ (root : Node) (self : List Name) (target : Name) (path : List Char)
      (r' : Node), symlink root self target path = .ok r' →
      target ≠ [] ∧ ∃ pos name cs,
        r' = setChildrenAt root pos
          (btInsert cs name (.symlink (SymlinkNode.new_static target))) ∧
        ∀ w, SymlinkNode.target (SymlinkNode.new_static target) w = target) ∧
    (∀ (f : Nat → Name) (w : Nat),
      SymlinkNode.target (SymlinkNode.new_dynamic f) w = f w) := by
  refine ⟨?_, ?_, fun f w => rfl⟩
  · intro root self path
    simp [symlink, symlinkF]
  · intro root self target path r' h
    obtain ⟨ht, pos, name, cs, _, _, _, hr⟩ :=
      symlinkF_ok_characterization (path.length + 1) root self target path r' h
    exact ⟨ht, pos, name, cs, hr, fun w => rfl⟩

theorem symlink_target_nonempty_witness :
    (['t'] : Name) ≠ [] ∧ ∃ pos name cs,
      Node.dir [(['z'], Node.symlink (SymlinkNode.new_static ['t']))] =
        setChildrenAt (Node.dir []) pos
          (btInsert cs name (.symlink (SymlinkNode.new_static ['t']))) ∧
      ∀ w, SymlinkNode.target (SymlinkNode.new_static ['t']) w = ['t'] :=
  symlink_target_nonempty.2.1 (.dir []) [] ['t'] ['z']
    (.dir [(['z'], Node.symlink (SymlinkNode.new_static ['t']))]) rfl

theorem twoDistinctAux_traverse (self : List Name) (name : Name)
    (t : List LockEv) :
    twoDistinctAux [] (traverse_path_trace self name ++ t) =
      twoDistinctAux [] t := by
  unfold traverse_path_trace
  by_cases h1 : name = [] ∨ name = ['.']
  · simp [h1]
  · by_cases h2 : name = ['.', '.']
    · simp [h1, h2]
    · simp [h1, h2, twoDistinctAux, heldAfter]

theorem lookupTraceF_no_two (fuel : Nat) (root : Node) (self : List Name)
    (path : List Char) :
    holdsTwoDistinct (lookupTraceF fuel root self path) = false := by
  induction fuel generalizing root self path with
  | zero => rfl
  | succ f ih =>
    rw [holdsTwoDistinct]
    simp only [lookupTraceF]
    cases hg : getAt root self with
    | none => rfl
    | some v =>
      cases v with
      | file sz => rfl
      | symlink s => rfl
      | dir cs =>
        cases hsp : split_path path with
        | mk name rest =>
          simp only []
          rw [twoDistinctAux_traverse]
          cases htr : traverse_path root self name with
          | error e => rfl
          | ok pos =>
            cases rest with
            | some r => exact ih root pos r
            | none => rfl

theorem remove_node_trace_two (self : List Name) (cs : Children)
    (name : Name) :
    holdsTwoDistinct (remove_node_trace self cs name) =
      match childGet cs name with
      | some (.dir _) => true
      | _ => false := by
  have hne : self ≠ self ++ [name] := by
    intro hh
    have := congrArg List.length hh
    simp at this
  cases hc : childGet cs name with
  | none =>
    simp [holdsTwoDistinct, remove_node_trace, hc, twoDistinctAux, heldAfter]
  | some v =>
    cases v with
    | dir ds =>
      simp [holdsTwoDistinct, remove_node_trace, hc, twoDistinctAux,
        heldAfter, hne]
    | file sz =>
      simp [holdsTwoDistinct, remove_node_trace, hc, twoDistinctAux,
        heldAfter]
    | symlink s =>
      simp [holdsTwoDistinct, remove_node_trace, hc, twoDistinctAux,
        heldAfter]

/-- C5 counterexample: the single call `remove("c")` on a directory whose
child `c` is a directory acquires the child's `children` read lock while
still holding the parent's `children` write lock, so its lock trace holds the
locks of two distinct directories simultaneously. -/
theorem remove_holds_two_locks_cex :
    holdsTwoDistinct (removeTrace (.dir [(['c'], .dir [])]) [] ['c']) =
      true := rfl

/-- C5 (amended): path descent never holds two directories' `children`
locks at once — `lookup` (and the descent steps of the wrappers, which share
its traversal) releases a directory's lock before moving to the next
directory; but `remove_node` holds the target directory's write lock while
taking the read lock of the child directory it checks for emptiness, so a
single remove call does briefly hold the locks of two distinct directories
(always parent then child) exactly when the removed child is a directory. -/
theorem lock_discipline :
    (∀ (fuel : Nat) (root : Node) (self : List Name) (path : List Char),
      holdsTwoDistinct (lookupTraceF fuel root self path) = false) ∧
    (∀ (self : List Name) (cs : Children) (name : Name),
      holdsTwoDistinct (remove_node_trace self cs name) =
        match childGet cs name with
        | some (.dir _) => true
        | _ => false) :=
  ⟨lookupTraceF_no_two, remove_node_trace_two⟩

theorem conceptSeq_eq (cs : Children) :
    conceptSeq cs = (['.'], VfsNodeType.Dir) :: (['.', '.'], VfsNodeType.Dir)
      :: cs.map (fun kv => (kv.1, fileTypeOf kv.2)) := rfl

theorem conceptSeq_drop_two (cs : Children) (k : Nat) :
    (conceptSeq cs).drop (k + 2) =
      (cs.drop k).map (fun kv => (kv.1, fileTypeOf kv.2)) := by
  rw [conceptSeq_eq, show k + 2 = k + 1 + 1 from rfl, List.drop_succ_cons,
    List.drop_succ_cons]
  exact (List.map_drop _ cs k).symm

theorem readDirLoop_spec (w : Nat) (cs : Children) (start : Nat) :
    ∀ (slots i : Nat),
      readDirLoop w (cs.drop (max (i + start) 2 - 2)) start i slots =
        some (((conceptSeq cs).drop (i + start)).take slots,
          i + (((conceptSeq cs).drop (i + start)).take slots).length) := by
  intro slots
  induction slots with
  | zero =>
    intro i
    simp [readDirLoop]
  | succ s ih =>
    intro i
    simp only [readDirLoop]
    cases hpos : i + start with
    | zero =>
      have H := ih (i + 1)
      rw [show i + 1 + start = 1 from by omega,
        show max (1 : Nat) 2 - 2 = 0 from by omega] at H
      rw [show max (0 : Nat) 2 - 2 = 0 from by omega]
      simp only [List.drop_zero] at H ⊢
      simp only [H, Option.map_some']
      refine congrArg some ?_
      rw [conceptSeq_eq]
      simp only [List.take_succ_cons, List.drop_succ_cons, List.drop_zero,
        List.length_cons, Prod.mk.injEq]
      exact ⟨trivial, by omega⟩
    | succ n =>
      cases n with
      | zero =>
        have H := ih (i + 1)
        rw [show i + 1 + start = 2 from by omega,
          show max (2 : Nat) 2 - 2 = 0 from by omega] at H
        rw [show max (1 : Nat) 2 - 2 = 0 from by omega]
        simp only [List.drop_zero] at H ⊢
        simp only [H, Option.map_some']
        refine congrArg some ?_
        rw [conceptSeq_eq]
        simp only [List.take_succ_cons, List.drop_succ_cons, List.drop_zero,
          List.length_cons, Prod.mk.injEq]
        exact ⟨trivial, by omega⟩
      | succ k =>
        rw [show max (k + 1 + 1) 2 - 2 = k from by omega]
        cases hrem : cs.drop k with
        | nil =>
          have hdrop : (conceptSeq cs).drop (k + 1 + 1) = [] := by
            rw [show k + 1 + 1 = k + 2 from rfl, conceptSeq_drop_two, hrem,
              List.map_nil]
          simp [hdrop]
        | cons hd rest =>
          obtain ⟨nm, nd⟩ := hd
          have hrest : cs.drop (k + 1) = rest := by
            have h1 := List.drop_drop 1 k cs
            rw [hrem] at h1
            rw [← h1]
            rfl
          have H := ih (i + 1)
          rw [show i + 1 + start = k + 3 from by omega,
            show max (k + 3) 2 - 2 = k + 1 from by omega, hrest] at H
          have hdrop : (conceptSeq cs).drop (k + 1 + 1) =
              (nm, fileTypeOf nd) :: (conceptSeq cs).drop (k + 3) := by
            rw [show k + 1 + 1 = k + 2 from rfl, conceptSeq_drop_two, hrem,
              show k + 3 = k + 1 + 2 from by omega, conceptSeq_drop_two,
              hrest, List.map_cons]
          simp only [getAttr_eq_ok, H, Option.map_some']
          refine congrArg some ?_
          rw [hdrop]
          simp only [List.take_succ_cons, List.length_cons, Prod.mk.injEq,
            file_type_attrOf]
          exact ⟨trivial, by omega⟩

theorem read_dir_eq (w : Nat) (cs : Children) (start len : Nat) :
    read_dir w cs start len =
      some (((conceptSeq cs).drop start).take len,
        (((conceptSeq cs).drop start).take len).length) := by
  have H := readDirLoop_spec w cs start len 0
  rw [Nat.zero_add] at H
  rw [read_dir, H, Nat.zero_add]

theorem nameLt_cons_iff (x y : Char) (as bs : Name) :
    nameLt (x :: as) (y :: bs) = true ↔
      (x.toNat < y.toNat ∨ (x.toNat = y.toNat ∧ nameLt as bs = true)) := by
  by_cases h1 : x.toNat < y.toNat
  · simp [nameLt, h1]
  · by_cases h2 : y.toNat < x.toNat
    · simp only [nameLt]
      rw [if_neg h1, if_pos h2]
      constructor
      · intro h
        exact absurd h (by simp)
      · rintro (h | ⟨he, _⟩) <;> omega
    · have h3 : x.toNat = y.toNat := by omega
      simp [nameLt, h1, h2, h3]

theorem nameLt_irrefl (l : Name) : nameLt l l = false := by
  induction l with
  | nil => rfl
  | cons a as ih => simp [nameLt, Nat.lt_irrefl, ih]

theorem nameLt_trans (a b c : Name) (hab : nameLt a b = true)
    (hbc : nameLt b c = true) : nameLt a c = true := by
  induction a generalizing b c with
  | nil =>
    cases b with
    | nil => simp [nameLt] at hab
    | cons y bs =>
      cases c with
      | nil => simp [nameLt] at hbc
      | cons z cs => simp [nameLt]
  | cons x as ih =>
    cases b with
    | nil => simp [nameLt] at hab
    | cons y bs =>
      cases c with
      | nil => simp [nameLt] at hbc
      | cons z cs =>
        rw [nameLt_cons_iff] at hab hbc ⊢
        rcases hab with h | ⟨he, ht⟩
        · rcases hbc with h' | ⟨he', _⟩
          · exact Or.inl (by omega)
          · exact Or.inl (by omega)
        · rcases hbc with h' | ⟨he', ht'⟩
          · exact Or.inl (by omega)
          · exact Or.inr ⟨by omega, ih bs cs ht ht'⟩

theorem nameLt_total (a : Name) : ∀ b : Name, a ≠ b →
    nameLt a b = true ∨ nameLt b a = true := by
  induction a with
  | nil =>
    intro b hne
    cases b with
    | nil => exact absurd rfl hne
    | cons y bs => exact Or.inl (by simp [nameLt])
  | cons x as ih =>
    intro b hne
    cases b with
    | nil => exact Or.inr (by simp [nameLt])
    | cons y bs =>
      by_cases h1 : x.toNat < y.toNat
      · exact Or.inl ((nameLt_cons_iff ..).2 (Or.inl h1))
      · by_cases h2 : y.toNat < x.toNat
        · exact Or.inr ((nameLt_cons_iff ..).2 (Or.inl h2))
        · have h3 : x = y := Char.ext (UInt32.ext
            (by simp only [Char.toNat] at h1 h2; omega))
          have hne' : as ≠ bs := fun hh => hne (by rw [h3, hh])
          rcases ih bs hne' with h | h
          · exact Or.inl ((nameLt_cons_iff ..).2 (Or.inr ⟨by omega, h⟩))
          · exact Or.inr ((nameLt_cons_iff ..).2 (Or.inr ⟨by omega, h⟩))

theorem mem_btInsert (cs : Children) (k : Name) (v : Node) (x : Name × Node)
    (hx : x ∈ btInsert cs k v) : x = (k, v) ∨ x ∈ cs := by
  induction cs with
  | nil => simpa [btInsert] using hx
  | cons hd tl ih =>
    obtain ⟨k', v'⟩ := hd
    by_cases h1 : nameLt k k'
    · simp only [btInsert, if_pos h1] at hx
      exact List.mem_cons.1 hx
    · by_cases h2 : k = k'
      · simp only [btInsert, if_neg h1, if_pos h2] at hx
        rcases List.mem_cons.1 hx with h | h
        · exact Or.inl h
        · exact Or.inr (List.mem_cons_of_mem _ h)
      · simp only [btInsert, if_neg h1, if_neg h2] at hx
        rcases List.mem_cons.1 hx with h | h
        · exact Or.inr (h ▸ List.mem_cons_self _ _)
        · rcases ih h with h' | h'
          · exact Or.inl h'
          · exact Or.inr (List.mem_cons_of_mem _ h')

theorem btInsert_sorted (cs : Children) (k : Name) (v : Node)
    (h : sortedKeys cs) : sortedKeys (btInsert cs k v) := by
  induction cs with
  | nil =>
    unfold sortedKeys
    simp [btInsert]
  | cons hd tl ih =>
    obtain ⟨k', v'⟩ := hd
    unfold sortedKeys at h ih ⊢
    rw [List.pairwise_cons] at h
    obtain ⟨hhd, htl⟩ := h
    by_cases h1 : nameLt k k'
    · simp only [btInsert, if_pos h1]
      refine List.Pairwise.cons ?_ (List.Pairwise.cons hhd htl)
      intro y hy
      rcases List.mem_cons.1 hy with rfl | hy'
      · exact h1
      · exact nameLt_trans k k' y.1 h1 (hhd y hy')
    · by_cases h2 : k = k'
      · simp only [btInsert, if_neg h1, if_pos h2]
        refine List.Pairwise.cons ?_ htl
        intro y hy
        rw [h2]
        exact hhd y hy
      · simp only [btInsert, if_neg h1, if_neg h2]
        refine List.Pairwise.cons ?_ (ih htl)
        intro y hy
        rcases mem_btInsert tl k v y hy with rfl | hy'
        · rcases nameLt_total k k' h2 with h | h
          · exact absurd h h1
          · exact h
        · exact hhd y hy'

theorem foldl_btInsert_sorted (inserts : List (Name × Node)) :
    ∀ cs, sortedKeys cs →
      sortedKeys (inserts.foldl (fun m kv => btInsert m kv.1 kv.2) cs) := by
  induction inserts with
  | nil => exact fun cs h => h
  | cons hd tl ih =>
    intro cs h
    exact ih _ (btInsert_sorted cs hd.1 hd.2 h)

theorem sortedKeys_nodup (cs : Children) (h : sortedKeys cs) :
    (cs.map Prod.fst).Nodup := by
  unfold sortedKeys at h
  show List.Pairwise _ _
  rw [List.pairwise_map]
  refine h.imp ?_
  intro a b hab he
  rw [show a.1 = b.1 from he] at hab
  rw [nameLt_irrefl] at hab
  exact Bool.noConfusion hab

/-- C2: `read_dir` with `len` output slots starting at `start` fills the
slots with exactly the `len`-or-fewer consecutive entries of the conceptual
sequence `[".", "..", children…]` beginning at index `start` and returns the
count filled; from offset `0` with a buffer of at least `children + 2` slots
it yields exactly `"."`, `".."`, then every child in map order, and a map
built from any insert sequence has strictly-sorted, duplicate-free keys. -/
theorem read_dir_pagination (w : Nat) (cs : Children) (start len : Nat) :
    read_dir w cs start len =
      some (((conceptSeq cs).drop start).take len,
        (((conceptSeq cs).drop start).take len).length) ∧
    (cs.length + 2 ≤ len →
      read_dir w cs 0 len = some (conceptSeq cs, cs.length + 2)) ∧
    (∀ inserts : List (Name × Node),
      sortedKeys (inserts.foldl (fun m kv => btInsert m kv.1 kv.2) []) ∧
      (((inserts.foldl (fun m kv => btInsert m kv.1 kv.2) []).map
        Prod.fst).Nodup)) := by
  have hlen3 : (conceptSeq cs).length = cs.length + 2 := by
    simp [conceptSeq_eq]
  refine ⟨read_dir_eq w cs start len, ?_, ?_⟩
  · intro hlen
    rw [read_dir_eq, List.drop_zero,
      List.take_of_length_le (by omega), hlen3]
  · intro inserts
    have hs := foldl_btInsert_sorted inserts [] List.Pairwise.nil
    exact ⟨hs, sortedKeys_nodup _ hs⟩

theorem read_dir_pagination_witness :
    read_dir 0 [(['x'], Node.file 0)] 0 3 =
      some (conceptSeq [(['x'], Node.file 0)],
        [(['x'], Node.file 0)].length + 2) :=
  (read_dir_pagination 0 [(['x'], Node.file 0)] 0 3).2.1 (by decide)

/-- C10: `get_attr` returns a success value for every node kind this
filesystem stores (directory, file, symlink), so the unconditional unwrap of
each child's `get_attr` inside `read_dir` can never panic: `read_dir`
returns a value (never the panic outcome `none`) for every directory
contents, start index, and buffer size. -/
theorem get_attr_total_no_panic :
    (∀ (n : Node) (w : Nat), getAttr n w = .ok (attrOf n w)) ∧
    (∀ (w : Nat) (cs : Children) (start len : Nat),
      (read_dir w cs start len).isSome = true) := by
  refine ⟨getAttr_eq_ok, ?_⟩
  intro w cs start len
  rw [read_dir_eq]
  rfl

end RamFs
